import Mathlib

/-!
Shallow embedding of Shannon_Huffman.py (Shannon-Fano / Huffman compression).

Conventions of the embedding:
* a symbol is a Char, a text is a List Char;
* a bit string ('0'/'1' characters in the source) is a List Bool (false = '0', true = '1');
* a byte sequence is a List Nat, every element the value of 8 bits, MSB first;
* a Python dict node is the PTree variant below: a leaf dict {char, freq} or an
  internal dict {freq, left, right}.  Because generate_codes tests the presence of
  the left and right keys separately, children are Option PTree: none models a
  missing key, and following a missing key (KeyError) yields an error (none);
* fallible Python code (KeyError, TypeError on None, unbounded recursion) is
  modelled with Option results; unbounded recursion additionally takes fuel.
-/

inductive PTree where
  | leaf (c : Char) (f : Nat)
  | node (f : Nat) (l r : Option PTree)

def PTree.isInternal : PTree → Bool
  | .leaf _ _ => false
  | .node _ _ _ => true

/-- A full tree: every internal dict node carries both a left and a right child. -/
def isFull : PTree → Bool
  | .leaf _ _ => true
  | .node _ (some l) (some r) => isFull l && isFull r
  | .node _ _ _ => false

/-- analyze_frequencies: dict(Counter(text)); keys appear in first-occurrence order. -/
def bumpCount (acc : List (Char × Nat)) (c : Char) : List (Char × Nat) :=
  if acc.any (fun p => p.1 == c) then
    acc.map (fun p => if p.1 == c then (p.1, p.2 + 1) else p)
  else acc ++ [(c, 1)]

def analyze_frequencies (text : List Char) : List (Char × Nat) :=
  text.foldl bumpCount []

/-- Python dict lookup where the table was built by update calls: last binding wins. -/
def lookupLast (table : List (Char × List Bool)) (c : Char) : Option (List Bool) :=
  table.foldl (fun acc p => if p.1 == c then some p.2 else acc) none

/-- The join in encode_text: concatenation of code_table[char] over the text;
    a missing symbol (KeyError) gives none. -/
def textToBits (table : List (Char × List Bool)) : List Char → Option (List Bool)
  | [] => some []
  | c :: rest => do
    let code ← lookupLast table c
    let more ← textToBits table rest
    pure (code ++ more)

/-- int(byte, 2): value of a bit string, most significant bit first. -/
def bitsToByte (bits : List Bool) : Nat :=
  bits.foldl (fun acc b => 2 * acc + (if b then 1 else 0)) 0

/-- The byte-grouping loop of encode_text: bits[i:i+8] for i = 0, 8, 16, ...; a
    final slice shorter than 8 bits is converted as it stands (the callers always
    pad to a multiple of 8 first). -/
def bitsToBytes : List Bool → List Nat
  | [] => []
  | b₀ :: b₁ :: b₂ :: b₃ :: b₄ :: b₅ :: b₆ :: b₇ :: rest =>
    bitsToByte [b₀, b₁, b₂, b₃, b₄, b₅, b₆, b₇] :: bitsToBytes rest
  | bits => [bitsToByte bits]

/-- encode_text: concatenate codes, pad with (8 - len % 8) % 8 zero bits, group into bytes. -/
def encode_text (text : List Char) (table : List (Char × List Bool)) :
    Option (List Nat × Nat) :=
  (textToBits table text).map fun bits =>
    let padding := (8 - bits.length % 8) % 8
    let padded := bits ++ List.replicate padding false
    (bitsToBytes padded, padding)

/-- format(byte, '08b'): the 8 bits of a byte value, most significant first. -/
def byteToBits (b : Nat) : List Bool :=
  (List.range 8).map (fun i => b / 2 ^ (7 - i) % 2 == 1)

def bytes_to_bits (data : List Nat) : List Bool :=
  (data.map byteToBits).flatten

/-- The traversal loop of decode_bits.  Each bit moves to node['left'] or
    node['right'] before any leaf test, so standing on a leaf (or following a
    missing child key) is a KeyError, modelled as none.  When the bits run out
    the symbols collected so far are returned, wherever the walk stopped. -/
def decodeLoop (root : PTree) : PTree → List Bool → List Char → Option (List Char)
  | _, [], acc => some acc.reverse
  | cur, b :: bs, acc =>
    match cur with
    | .leaf _ _ => none
    | .node _ l r =>
      match (if b then r else l) with
      | none => none
      | some (.leaf c _) => decodeLoop root root bs (c :: acc)
      | some (.node f l' r') => decodeLoop root (.node f l' r') bs acc

/-- decode_bits: drop the trailing padding bits, then walk the tree. -/
def decode_bits (bits : List Bool) (tree : PTree) (padding : Nat) : Option (List Char) :=
  decodeLoop tree tree (bits.take (bits.length - padding)) []

/-- sum(freq for _, freq in items). -/
def sumFreqs (items : List (Char × Nat)) : Nat :=
  (items.map (fun p => p.2)).sum

/-- The scanning loop of shannon_fano_split.  The source compares
    abs(cumulative - total/2.0); the embedding compares |2*cumulative - total|,
    which orders candidates identically.  min_diff = inf is the none state. -/
def splitFold (total : Nat) : List (Char × Nat) → Nat → Nat → Nat → Option Nat → Nat
  | [], _, _, best, _ => best
  | p :: rest, i, cum, best, md =>
    let cum' := cum + p.2
    let diff := Nat.dist (2 * cum') total
    match md with
    | none => splitFold total rest (i + 1) cum' (i + 1) (some diff)
    | some m =>
      if diff < m then splitFold total rest (i + 1) cum' (i + 1) (some diff)
      else splitFold total rest (i + 1) cum' best (some m)

def shannon_fano_split (items : List (Char × Nat)) : Nat :=
  max 1 (min (splitFold (sumFreqs items) items 0 0 1 none) (items.length - 1))

/-- build_shannon_tree.  The Python recursion has no base case for an empty item
    list (it recurses on two empty halves forever), so the embedding takes fuel
    and returns none when the fuel runs out; fuel items.length is enough for any
    non-empty list. -/
def build_shannon_tree : Nat → List (Char × Nat) → Option PTree
  | 0, _ => none
  | fuel + 1, items =>
    match items with
    | [p] => some (.leaf p.1 p.2)
    | _ => do
      let split := shannon_fano_split items
      let l ← build_shannon_tree fuel (items.take split)
      let r ← build_shannon_tree fuel (items.drop split)
      pure (.node (sumFreqs items) (some l) (some r))

/-- generate_codes.  Left entries first, then right entries; a duplicated symbol
    is resolved by lookupLast exactly as the dict update in the source. -/
def generate_codes : PTree → List Bool → List (Char × List Bool)
  | .leaf c _, pre => [(c, if pre.isEmpty then [false] else pre)]
  | .node _ l r, pre =>
    (match l with
     | some tl => generate_codes tl (pre ++ [false])
     | none => []) ++
    (match r with
     | some tr => generate_codes tr (pre ++ [true])
     | none => [])

/-- sorted(frequencies.items(), key=lambda x: x[1], reverse=True): Python's sort is
    stable, so equal frequencies keep their relative table order.  Modelled as a
    stable insertion sort into descending frequency order. -/
def insertDesc (p : Char × Nat) : List (Char × Nat) → List (Char × Nat)
  | [] => [p]
  | q :: rest => if q.2 ≤ p.2 then p :: q :: rest else q :: insertDesc p rest

def sortDesc (l : List (Char × Nat)) : List (Char × Nat) :=
  l.foldr insertDesc []

def shannon_fano_compress (text : List Char) :
    Option (List Nat × PTree × Nat × List (Char × List Bool)) := do
  let frequencies := analyze_frequencies text
  let items := sortDesc frequencies
  let tree ← build_shannon_tree items.length items
  let code_table := generate_codes tree []
  let (compressed, padding) ← encode_text text code_table
  pure (compressed, tree, padding, code_table)

def shannon_fano_decompress (data : List Nat) (tree : PTree) (padding : Nat) :
    Option (List Char) :=
  decode_bits (bytes_to_bits data) tree padding

/-- The nondeterministic ingredient of the Huffman builder: the Python code keys
    its heap entries with id(char) for leaves and id(merged) for internal nodes
    (CPython memory addresses).  The embedding makes those ids an explicit input:
    leafId gives id(char), mergeId n gives the id of the n-th merged dict. -/
structure IdAssign where
  leafId : Char → Nat
  mergeId : Nat → Nat

/-- A heap entry (freq, id(obj), node) as pushed by build_huffman_tree. -/
abbrev HeapEntry := Nat × Nat × PTree

/-- heappop on entries with pairwise distinct (freq, id) keys: the entry with the
    lexicographically least key is removed (the first such entry if keys repeat,
    where CPython would instead try to compare dicts). -/
def popMin : List HeapEntry → Option (HeapEntry × List HeapEntry)
  | [] => none
  | e :: rest =>
    match popMin rest with
    | none => some (e, [])
    | some (m, rest') =>
      if e.1 < m.1 ∨ (e.1 = m.1 ∧ e.2.1 ≤ m.2.1) then some (e, rest)
      else some (m, e :: rest')

/-- The merge loop of build_huffman_tree: while len(heap) > 1 pop the two least
    entries, push their merge; finally heap[0][2] if heap else None (none for an
    empty heap).  One merge per step consumes one unit of fuel; the initial heap
    size is always enough fuel. -/
def huffLoop (mergeId : Nat → Nat) : Nat → Nat → List HeapEntry → Option PTree
  | _, _, [] => none
  | _, _, [e] => some e.2.2
  | 0, _, _ :: _ :: _ => none
  | fuel + 1, step, e₀ :: e₁ :: rest =>
    match popMin (e₀ :: e₁ :: rest) with
    | none => none
    | some (f₁, rest₁) =>
      match popMin rest₁ with
      | none => none
      | some (f₂, rest₂) =>
        let f := f₁.1 + f₂.1
        huffLoop mergeId fuel (step + 1)
          ((f, mergeId step, PTree.node f (some f₁.2.2) (some f₂.2.2)) :: rest₂)

def build_huffman_tree (ids : IdAssign) (freqs : List (Char × Nat)) : Option PTree :=
  huffLoop ids.mergeId freqs.length 0
    (freqs.map fun p => (p.2, ids.leafId p.1, PTree.leaf p.1 p.2))

def huffman_compress (ids : IdAssign) (text : List Char) :
    Option (List Nat × PTree × Nat × List (Char × List Bool)) := do
  let frequencies := analyze_frequencies text
  let tree ← build_huffman_tree ids frequencies
  let code_table := generate_codes tree []
  let (compressed, padding) ← encode_text text code_table
  pure (compressed, tree, padding, code_table)

def huffman_decompress (data : List Nat) (tree : PTree) (padding : Nat) :
    Option (List Char) :=
  decode_bits (bytes_to_bits data) tree padding

/-- The metadata dict returned by arithmetic_compress on non-empty input. -/
structure ArithMeta where
  frequencies : List (Char × Nat)
  tree : PTree
  code_table : List (Char × List Bool)
  text_length : Nat

/-- arithmetic_compress: guards empty text with (b'', {}, 0) — the empty dict is
    modelled as none — then repeats the Huffman path with the encode loop written
    out inline exactly as in the source. -/
def arithmetic_compress (ids : IdAssign) (text : List Char) :
    Option (List Nat × Option ArithMeta × Nat) :=
  if text.isEmpty then some ([], none, 0)
  else do
    let frequencies := analyze_frequencies text
    let tree ← build_huffman_tree ids frequencies
    let code_table := generate_codes tree []
    let bits ← textToBits code_table text
    let padding := (8 - bits.length % 8) % 8
    let padded := bits ++ List.replicate padding false
    let compressed := bitsToBytes padded
    pure (compressed, some ⟨frequencies, tree, code_table, text.length⟩, padding)

/-- Claim-side definition (spec wording) for the split point: the absolute
    difference between the left partition's cumulative weight and half the total
    weight, for the candidate split after the first i items; as in splitFold the
    comparison value is doubled to stay in Nat, ordering candidates identically. -/
def splitDiff (items : List (Char × Nat)) (i : Nat) : Nat :=
  Nat.dist (2 * sumFreqs (items.take i)) (sumFreqs items)

/-- Claim-side definition (spec wording): j is the first candidate split index,
    scanning 1, 2, ... left to right, that attains the minimal difference. -/
def IsFirstMinSplit (items : List (Char × Nat)) (j : Nat) : Prop :=
  1 ≤ j ∧ j ≤ items.length ∧
  (∀ i, 1 ≤ i → i ≤ items.length → splitDiff items j ≤ splitDiff items i) ∧
  (∀ i, 1 ≤ i → i < j → splitDiff items j < splitDiff items i)

/-- a begins b: a is an initial segment (equality allowed) of the bit string b. -/
def Begins (a b : List Bool) : Prop := ∃ t, a ++ t = b

/-- Observation separating the two tie-break outcomes: whether the left child of
    the root is a leaf. -/
def leftChildIsLeaf : Option PTree → Bool
  | some (.node _ (some (.leaf _ _)) _) => true
  | _ => false

/-- C1: round-trip fails on the code for a single repeated symbol: compressing
    "aaaa" (either algorithm) yields one byte, a single-Leaf tree and padding 4,
    but decode_bits navigates node['left'] before testing for a leaf, so
    decompression of that payload is a KeyError (none), not "aaaa". -/
theorem roundtrip_fails_on_single_symbol (ids : IdAssign) :
    shannon_fano_compress ['a', 'a', 'a', 'a'] =
      some ([0], PTree.leaf 'a' 4, 4, [('a', [false])]) ∧
    huffman_compress ids ['a', 'a', 'a', 'a'] =
      some ([0], PTree.leaf 'a' 4, 4, [('a', [false])]) ∧
    shannon_fano_decompress [0] (PTree.leaf 'a' 4) 4 = none ∧
    huffman_decompress [0] (PTree.leaf 'a' 4) 4 = none :=
  ⟨rfl, rfl, rfl, rfl⟩

/-- C2: neither compressor guards the empty input: build_shannon_tree never
    terminates on the empty item list (none at every fuel), so
    shannon_fano_compress of the empty text is an error rather than an empty
    payload, and huffman_compress fails because build_huffman_tree gives back no
    tree (Python None) which generate_codes cannot take. -/
theorem empty_input_not_guarded (fuel : Nat) (ids : IdAssign) :
    build_shannon_tree fuel [] = none ∧
    shannon_fano_compress [] = none ∧
    huffman_compress ids [] = none := by
  refine ⟨?_, rfl, rfl⟩
  induction fuel with
  | zero => rfl
  | succ n ih => simp [build_shannon_tree, shannon_fano_split, splitFold, sumFreqs, ih]

/-- C9: the Huffman tie-break is id(), not a creation-sequence counter: on the
    frequency table {a:1, b:1, c:2} the two weight-2 nodes (the leaf c and the
    first merged node) tie, and which becomes the left child of the root depends
    on the id assigned to the merged dict — the tree is not a function of the
    symbols and frequencies alone. -/
theorem huffman_tie_break_depends_on_ids :
    build_huffman_tree ⟨fun c => c.toNat, fun _ => 1000⟩ [('a', 1), ('b', 1), ('c', 2)] =
      some (.node 4 (some (.leaf 'c' 2))
        (some (.node 2 (some (.leaf 'a' 1)) (some (.leaf 'b' 1))))) ∧
    build_huffman_tree ⟨fun c => c.toNat, fun _ => 0⟩ [('a', 1), ('b', 1), ('c', 2)] =
      some (.node 4 (some (.node 2 (some (.leaf 'a' 1)) (some (.leaf 'b' 1))))
        (some (.leaf 'c' 2))) ∧
    build_huffman_tree ⟨fun c => c.toNat, fun _ => 1000⟩ [('a', 1), ('b', 1), ('c', 2)] ≠
      build_huffman_tree ⟨fun c => c.toNat, fun _ => 0⟩ [('a', 1), ('b', 1), ('c', 2)] :=
  ⟨rfl, rfl, fun h => absurd (congrArg leftChildIsLeaf h) (by decide)⟩

/-- C3 counterexample: compressing "aaaaaabbcca" is successful and yields the two
    bytes [2, 188] with padding 1; truncating the payload by one byte and
    decoding gives back some "aaaaaa" — a silent partial result (the walk stops
    inside the tree on the dangling bit), not an error. -/
theorem truncated_payload_decodes_silently :
    shannon_fano_compress ['a', 'a', 'a', 'a', 'a', 'a', 'b', 'b', 'c', 'c', 'a'] =
      some ([2, 188],
        PTree.node 11 (some (PTree.leaf 'a' 7))
          (some (PTree.node 4 (some (PTree.leaf 'b' 2)) (some (PTree.leaf 'c' 2)))), 1,
        [('a', [false]), ('b', [true, false]), ('c', [true, true])]) ∧
    shannon_fano_decompress [2]
        (PTree.node 11 (some (PTree.leaf 'a' 7))
          (some (PTree.node 4 (some (PTree.leaf 'b' 2)) (some (PTree.leaf 'c' 2))))) 1 =
      some ['a', 'a', 'a', 'a', 'a', 'a'] ∧
    (some ['a', 'a', 'a', 'a', 'a', 'a'] : Option (List Char)) ≠ none :=
  ⟨rfl, rfl, by simp⟩

/-- C10: on non-empty text the "arithmetic coding" path is the Huffman path under
    another name: with the same id assignment it returns exactly the compressed
    bytes and padding count of huffman_compress. -/
theorem arithmetic_path_equals_huffman_path (ids : IdAssign) (text : List Char)
    (h : text ≠ []) :
    (arithmetic_compress ids text).map (fun r => (r.1, r.2.2)) =
    (huffman_compress ids text).map (fun r => (r.1, r.2.2.1)) := by
  match text, h with
  | c :: rest, _ =>
    cases hb : build_huffman_tree ids (analyze_frequencies (c :: rest)) with
    | none => simp [arithmetic_compress, huffman_compress, hb]
    | some t =>
      cases ht : textToBits (generate_codes t []) (c :: rest) with
      | none => simp [arithmetic_compress, huffman_compress, encode_text, hb, ht]
      | some bits => simp [arithmetic_compress, huffman_compress, encode_text, hb, ht]

theorem arithmetic_path_equals_huffman_path_witness :
    (['a', 'b'] : List Char) ≠ [] ∧
    (arithmetic_compress ⟨fun c => c.toNat, fun n => 1000 + n⟩ ['a', 'b']).map
        (fun r => (r.1, r.2.2)) =
      (huffman_compress ⟨fun c => c.toNat, fun n => 1000 + n⟩ ['a', 'b']).map
        (fun r => (r.1, r.2.2.1)) :=
  ⟨by simp, arithmetic_path_equals_huffman_path _ _ (by simp)⟩

theorem decodeLoop_isSome (root : PTree) (hrf : isFull root = true)
    (hri : root.isInternal = true) :
    ∀ (bs : List Bool) (cur : PTree) (acc : List Char),
      isFull cur = true → cur.isInternal = true →
      (decodeLoop root cur bs acc).isSome = true := by
  intro bs
  induction bs with
  | nil => intro cur acc _ _; simp [decodeLoop]
  | cons b bs ih =>
    intro cur acc hcf hci
    cases cur with
    | leaf c f => simp [PTree.isInternal] at hci
    | node f l r =>
      cases l with
      | none => exact absurd hcf (by simp [isFull])
      | some l' =>
        cases r with
        | none => exact absurd hcf (by simp [isFull])
        | some r' =>
          have hl : isFull l' = true := by
            have : (isFull l' && isFull r') = true := hcf
            exact (Bool.and_eq_true_iff.mp this).1
          have hr : isFull r' = true := by
            have : (isFull l' && isFull r') = true := hcf
            exact (Bool.and_eq_true_iff.mp this).2
          cases b with
          | false =>
            cases l' with
            | leaf c cf => simpa [decodeLoop] using ih root (c :: acc) hrf hri
            | node f₂ l₂ r₂ =>
              simpa [decodeLoop] using ih (PTree.node f₂ l₂ r₂) acc hl rfl
          | true =>
            cases r' with
            | leaf c cf => simpa [decodeLoop] using ih root (c :: acc) hrf hri
            | node f₂ l₂ r₂ =>
              simpa [decodeLoop] using ih (PTree.node f₂ l₂ r₂) acc hr rfl

/-- C3 (amended): decode_bits never signals an error for bit-stream exhaustion:
    on any full tree with an internal root it completes successfully wherever the
    bits end — mid-traversal included — returning the symbols fully decoded so
    far and silently dropping a partial traversal. -/
theorem decode_bits_never_errors (bits : List Bool) (t : PTree) (padding : Nat)
    (hf : isFull t = true) (hi : t.isInternal = true) :
    (decode_bits bits t padding).isSome = true :=
  decodeLoop_isSome t hf hi _ t [] hf hi

theorem popMin_mem : ∀ {l : List HeapEntry} {e : HeapEntry} {rest : List HeapEntry},
    popMin l = some (e, rest) → e ∈ l := by
  intro l
  induction l with
  | nil => intro e rest h; simp [popMin] at h
  | cons a l ih =>
    intro e rest h
    rw [popMin] at h
    cases h' : popMin l with
    | none => rw [h'] at h; simp at h; simp [h.1]
    | some p =>
      rw [h'] at h
      by_cases hc : a.1 < p.1.1 ∨ (a.1 = p.1.1 ∧ a.2.1 ≤ p.1.2.1)
      · simp [hc] at h; simp [h.1]
      · simp [hc] at h
        exact List.mem_cons_of_mem a (h.1 ▸ ih h')

theorem popMin_rest_mem : ∀ {l : List HeapEntry} {e : HeapEntry} {rest : List HeapEntry},
    popMin l = some (e, rest) → ∀ x ∈ rest, x ∈ l := by
  intro l
  induction l with
  | nil => intro e rest h; simp [popMin] at h
  | cons a l ih =>
    intro e rest h x hx
    rw [popMin] at h
    cases h' : popMin l with
    | none => rw [h'] at h; simp at h; rw [h.2] at hx; simp at hx
    | some p =>
      rw [h'] at h
      by_cases hc : a.1 < p.1.1 ∨ (a.1 = p.1.1 ∧ a.2.1 ≤ p.1.2.1)
      · simp [hc] at h
        rw [← h.2] at hx
        exact List.mem_cons_of_mem a hx
      · simp [hc] at h
        rw [← h.2] at hx
        rcases List.mem_cons.mp hx with h1 | h1
        · simp [h1]
        · exact List.mem_cons_of_mem a (ih h' x h1)

theorem huffLoop_isFull (mid : Nat → Nat) :
    ∀ (fuel step : Nat) (heap : List HeapEntry),
      (∀ e ∈ heap, isFull e.2.2 = true) →
      ∀ t, huffLoop mid fuel step heap = some t → isFull t = true := by
  intro fuel
  induction fuel with
  | zero =>
    intro step heap hinv t ht
    match heap, ht with
    | [e], ht =>
      have : e.2.2 = t := by simpa [huffLoop] using ht
      exact this ▸ hinv e (by simp)
  | succ n ih =>
    intro step heap hinv t ht
    match heap, ht with
    | [e], ht =>
      have : e.2.2 = t := by simpa [huffLoop] using ht
      exact this ▸ hinv e (by simp)
    | e₀ :: e₁ :: rest, ht =>
      rw [huffLoop] at ht
      cases h₁ : popMin (e₀ :: e₁ :: rest) with
      | none => rw [h₁] at ht; simp at ht
      | some p₁ =>
        obtain ⟨f₁, rest₁⟩ := p₁
        rw [h₁] at ht
        simp only at ht
        cases h₂ : popMin rest₁ with
        | none => rw [h₂] at ht; simp at ht
        | some p₂ =>
          obtain ⟨f₂, rest₂⟩ := p₂
          rw [h₂] at ht
          simp only at ht
          refine ih (step + 1) _ ?_ t ht
          intro e he
          rcases List.mem_cons.mp he with h1 | h1
          · have hf₁ : isFull f₁.2.2 = true := hinv _ (popMin_mem h₁)
            have hf₂ : isFull f₂.2.2 = true :=
              hinv _ (popMin_rest_mem h₁ _ (popMin_mem h₂))
            rw [h1]
            simp only [isFull]
            rw [hf₁, hf₂]
            rfl
          · exact hinv e (popMin_rest_mem h₁ _ (popMin_rest_mem h₂ _ h1))

theorem build_shannon_isFull :
    ∀ (fuel : Nat) (items : List (Char × Nat)) (t : PTree),
      build_shannon_tree fuel items = some t → isFull t = true := by
  intro fuel
  induction fuel with
  | zero => intro items t h; simp [build_shannon_tree] at h
  | succ n ih =>
    intro items t h
    match items with
    | [p] =>
      have : PTree.leaf p.1 p.2 = t := by simpa [build_shannon_tree] using h
      exact this ▸ rfl
    | [] =>
      simp only [build_shannon_tree] at h
      cases hl : build_shannon_tree n (([] : List (Char × Nat)).take (shannon_fano_split [])) with
      | none => rw [hl] at h; simp at h
      | some lt =>
        rw [hl] at h
        cases hr : build_shannon_tree n (([] : List (Char × Nat)).drop (shannon_fano_split [])) with
        | none => rw [hr] at h; simp at h
        | some rt =>
          rw [hr] at h
          simp at h
          rw [← h]
          simp only [isFull]
          rw [ih _ _ hl, ih _ _ hr]
          rfl
    | p :: q :: tl =>
      simp only [build_shannon_tree] at h
      cases hl : build_shannon_tree n ((p :: q :: tl).take (shannon_fano_split (p :: q :: tl))) with
      | none => rw [hl] at h; simp at h
      | some lt =>
        rw [hl] at h
        cases hr : build_shannon_tree n ((p :: q :: tl).drop (shannon_fano_split (p :: q :: tl))) with
        | none => rw [hr] at h; simp at h
        | some rt =>
          rw [hr] at h
          simp at h
          rw [← h]
          simp only [isFull]
          rw [ih _ _ hl, ih _ _ hr]
          rfl

/-- C5: every tree either builder returns is a full binary tree: whenever
    build_shannon_tree or build_huffman_tree produces a tree, every internal
    node of it carries both children. -/
theorem builders_produce_full_trees (fuel : Nat) (items freqs : List (Char × Nat))
    (ids : IdAssign) (t₁ t₂ : PTree)
    (h₁ : build_shannon_tree fuel items = some t₁)
    (h₂ : build_huffman_tree ids freqs = some t₂) :
    isFull t₁ = true ∧ isFull t₂ = true := by
  refine ⟨build_shannon_isFull fuel items t₁ h₁, ?_⟩
  refine huffLoop_isFull ids.mergeId freqs.length 0 _ ?_ t₂ h₂
  intro e he
  obtain ⟨p, hp, rfl⟩ := List.mem_map.mp he
  rfl

theorem builders_produce_full_trees_witness :
    isFull (PTree.node 2 (some (PTree.leaf 'a' 1)) (some (PTree.leaf 'b' 1))) = true ∧
    isFull (PTree.node 2 (some (PTree.leaf 'a' 1)) (some (PTree.leaf 'b' 1))) = true :=
  builders_produce_full_trees 2 [('a', 1), ('b', 1)] [('a', 1), ('b', 1)]
    ⟨fun c => c.toNat, fun _ => 0⟩ _ _ rfl rfl

theorem decode_bits_never_errors_witness :
    isFull (PTree.node 2 (some (PTree.leaf 'a' 1)) (some (PTree.leaf 'b' 1))) = true ∧
    PTree.isInternal (PTree.node 2 (some (PTree.leaf 'a' 1)) (some (PTree.leaf 'b' 1))) = true ∧
    (decode_bits [true, false]
      (PTree.node 2 (some (PTree.leaf 'a' 1)) (some (PTree.leaf 'b' 1))) 1).isSome = true :=
  ⟨rfl, rfl, decode_bits_never_errors [true, false] _ 1 rfl rfl⟩

theorem begins_of_begins_append {a s c : List Bool} (h : Begins (a ++ s) c) :
    Begins a c := by
  obtain ⟨t, ht⟩ := h
  exact ⟨s ++ t, by rw [← List.append_assoc, ht]⟩

theorem begins_same_disagree {pre : List Bool} {x y : Bool} {c : List Bool}
    (hx : Begins (pre ++ [x]) c) (hy : Begins (pre ++ [y]) c) : x = y := by
  obtain ⟨t₁, h₁⟩ := hx
  obtain ⟨t₂, h₂⟩ := hy
  rw [← h₂] at h₁
  have h₃ : pre ++ ([x] ++ t₁) = pre ++ ([y] ++ t₂) := by
    simpa [List.append_assoc] using h₁
  have h₄ : [x] ++ t₁ = [y] ++ t₂ := by
    exact List.append_cancel_left h₃
  simpa using congrArg (fun l => l.head?) h₄

theorem begins_trans {a b c : List Bool} (h₁ : Begins a b) (h₂ : Begins b c) :
    Begins a c := by
  obtain ⟨t₁, ht₁⟩ := h₁
  obtain ⟨t₂, ht₂⟩ := h₂
  exact ⟨t₁ ++ t₂, by rw [← List.append_assoc, ht₁, ht₂]⟩

theorem begins_cross {pre a b : List Bool} {x y : Bool}
    (hx : Begins (pre ++ [x]) a) (hy : Begins (pre ++ [y]) b) (hne : x ≠ y) :
    ¬ Begins a b := by
  intro hab
  exact hne (begins_same_disagree (begins_trans hx hab) hy)

theorem genCodes_begins (t : PTree) (pre : List Bool) (hp : pre ≠ []) :
    ∀ p ∈ generate_codes t pre, Begins pre p.2 := by
  match t with
  | .leaf c f =>
    intro p hmem
    simp [generate_codes, hp] at hmem
    rw [hmem]
    exact ⟨[], by simp⟩
  | .node f l r =>
    intro p hmem
    rw [generate_codes.eq_def] at hmem
    simp only at hmem
    rcases List.mem_append.mp hmem with h | h
    · match l, h with
      | some tl, h =>
        exact begins_of_begins_append (genCodes_begins tl (pre ++ [false]) (by simp) p h)
      | none, h => simp at h
    · match r, h with
      | some tr, h =>
        exact begins_of_begins_append (genCodes_begins tr (pre ++ [true]) (by simp) p h)
      | none, h => simp at h

theorem genCodes_pairwise (t : PTree) (pre : List Bool) :
    ((generate_codes t pre).map (fun p => p.2)).Pairwise
      (fun a b => ¬ Begins a b ∧ ¬ Begins b a) := by
  match t with
  | .leaf c f => simp [generate_codes]
  | .node f l r =>
    rw [generate_codes.eq_def]
    simp only
    rw [List.map_append, List.pairwise_append]
    refine ⟨?_, ?_, ?_⟩
    · match l with
      | some tl => exact genCodes_pairwise tl (pre ++ [false])
      | none => simp
    · match r with
      | some tr => exact genCodes_pairwise tr (pre ++ [true])
      | none => simp
    · intro a ha b hb
      have hBa : Begins (pre ++ [false]) a := by
        match l, ha with
        | some tl, ha =>
          obtain ⟨p, hpmem, rfl⟩ := List.mem_map.mp ha
          exact genCodes_begins tl (pre ++ [false]) (by simp) p hpmem
        | none, ha => simp at ha
      have hBb : Begins (pre ++ [true]) b := by
        match r, hb with
        | some tr, hb =>
          obtain ⟨p, hpmem, rfl⟩ := List.mem_map.mp hb
          exact genCodes_begins tr (pre ++ [true]) (by simp) p hpmem
        | none, hb => simp at hb
      exact ⟨begins_cross hBa hBb (by simp), begins_cross hBb hBa (by simp)⟩

/-- C4: codes generated from any tree are prefix-free: in a code table with at
    least two entries no code is a proper prefix (here: a distinct initial
    segment) of another code. -/
theorem code_table_no_code_begins_another (t : PTree)
    (h2 : 2 ≤ (generate_codes t []).length)
    (c₁ c₂ : List Bool)
    (hm₁ : c₁ ∈ (generate_codes t []).map (fun p => p.2))
    (hm₂ : c₂ ∈ (generate_codes t []).map (fun p => p.2))
    (hne : c₁ ≠ c₂) : ¬ Begins c₁ c₂ :=
  ((genCodes_pairwise t []).forall
    (fun _ _ h => ⟨h.2, h.1⟩) hm₁ hm₂ hne).1

theorem code_table_no_code_begins_another_witness :
    ¬ Begins [false] [true] :=
  code_table_no_code_begins_another
    (PTree.node 2 (some (PTree.leaf 'a' 1)) (some (PTree.leaf 'b' 1)))
    (by decide) [false] [true] (by decide) (by decide) (by decide)

theorem bitsToBytes_length (l : List Bool) :
    (bitsToBytes l).length = (l.length + 7) / 8 := by
  match l with
  | [] => rfl
  | [_] => simp [bitsToBytes]
  | [_, _] => simp [bitsToBytes]
  | [_, _, _] => simp [bitsToBytes]
  | [_, _, _, _] => simp [bitsToBytes]
  | [_, _, _, _, _] => simp [bitsToBytes]
  | [_, _, _, _, _, _] => simp [bitsToBytes]
  | [_, _, _, _, _, _, _] => simp [bitsToBytes]
  | b₀ :: b₁ :: b₂ :: b₃ :: b₄ :: b₅ :: b₆ :: b₇ :: rest =>
    have ih := bitsToBytes_length rest
    simp only [bitsToBytes, List.length_cons, ih]
    omega

/-- C8: whenever the code table covers the text, packing returns padding
    (8 - L % 8) % 8 (hence in [0,7]) and exactly ceil(L / 8) = (L + 7) / 8 bytes,
    where L is the length of the concatenated code bits. -/
theorem encode_padding_and_byte_length (text : List Char)
    (table : List (Char × List Bool)) (bits : List Bool)
    (h : textToBits table text = some bits) :
    ∃ data pad, encode_text text table = some (data, pad) ∧
      pad = (8 - bits.length % 8) % 8 ∧ pad ≤ 7 ∧
      data.length = (bits.length + 7) / 8 := by
  refine ⟨bitsToBytes (bits ++ List.replicate ((8 - bits.length % 8) % 8) false),
          (8 - bits.length % 8) % 8, ?_, rfl, by omega, ?_⟩
  · simp [encode_text, h]
  · rw [bitsToBytes_length]
    simp only [List.length_append, List.length_replicate]
    omega

theorem encode_padding_and_byte_length_witness :
    ∃ data pad, encode_text ['a'] [('a', [false])] = some (data, pad) ∧
      pad = (8 - ([false] : List Bool).length % 8) % 8 ∧ pad ≤ 7 ∧
      data.length = (([false] : List Bool).length + 7) / 8 :=
  encode_padding_and_byte_length ['a'] [('a', [false])] [false] rfl

theorem insertDesc_perm (p : Char × Nat) (l : List (Char × Nat)) :
    (insertDesc p l).Perm (p :: l) := by
  induction l with
  | nil => rfl
  | cons q rest ih =>
    rw [insertDesc]
    by_cases hc : q.2 ≤ p.2
    · simp [hc]
    · simp only [hc, if_false]
      exact (ih.cons q).trans (List.Perm.swap p q rest)

theorem insertDesc_mem {x p : Char × Nat} {l : List (Char × Nat)}
    (h : x ∈ insertDesc p l) : x = p ∨ x ∈ l :=
  by simpa using (insertDesc_perm p l).mem_iff.mp h

theorem insertDesc_sorted (p : Char × Nat) (l : List (Char × Nat))
    (h : l.Pairwise (fun a b => b.2 ≤ a.2)) :
    (insertDesc p l).Pairwise (fun a b => b.2 ≤ a.2) := by
  induction l with
  | nil => simp [insertDesc]
  | cons q rest ih =>
    rw [insertDesc]
    by_cases hc : q.2 ≤ p.2
    · simp only [hc, if_true]
      refine List.Pairwise.cons ?_ h
      intro x hx
      rcases List.mem_cons.mp hx with rfl | hx
      · exact hc
      · exact le_trans ((List.pairwise_cons.mp h).1 x hx) hc
    · simp only [hc, if_false]
      have hq := List.pairwise_cons.mp h
      refine List.Pairwise.cons ?_ (ih hq.2)
      intro x hx
      rcases insertDesc_mem hx with rfl | hx
      · exact le_of_lt (lt_of_not_le hc)
      · exact hq.1 x hx

theorem insertDesc_filter_eq (p : Char × Nat) (l : List (Char × Nat)) (k : Nat)
    (hp : p.2 = k) :
    (insertDesc p l).filter (fun q => q.2 == k) =
      p :: l.filter (fun q => q.2 == k) := by
  induction l with
  | nil => simp [insertDesc, List.filter_cons, hp]
  | cons q rest ih =>
    rw [insertDesc]
    by_cases hc : q.2 ≤ p.2
    · rw [if_pos hc]
      simp [List.filter_cons, hp]
    · have hqk : (q.2 == k) = false := by
        simp only [beq_eq_false_iff_ne]
        omega
      rw [if_neg hc]
      simp [List.filter_cons, hqk, ih]

theorem insertDesc_filter_ne (p : Char × Nat) (l : List (Char × Nat)) (k : Nat)
    (hp : p.2 ≠ k) :
    (insertDesc p l).filter (fun q => q.2 == k) =
      l.filter (fun q => q.2 == k) := by
  have hpk : (p.2 == k) = false := by
    simp only [beq_eq_false_iff_ne]
    exact hp
  induction l with
  | nil => simp [insertDesc, List.filter_cons, hpk]
  | cons q rest ih =>
    rw [insertDesc]
    by_cases hc : q.2 ≤ p.2
    · rw [if_pos hc]
      simp [List.filter_cons, hpk]
    · rw [if_neg hc]
      simp [List.filter_cons, ih]

/-- C7 (amended): the items handed to the Shannon-Fano builder are the frequency
    pairs sorted by frequency descending with Python's stable sort: the result is
    a permutation of the table, its frequencies are non-increasing, and entries
    of equal frequency keep the table's (first-occurrence) relative order — the
    tie-break is table order, not symbol identity. -/
theorem sortDesc_stable_by_freq (l : List (Char × Nat)) :
    (sortDesc l).Perm l ∧
    (sortDesc l).Pairwise (fun a b => b.2 ≤ a.2) ∧
    ∀ k, (sortDesc l).filter (fun q => q.2 == k) = l.filter (fun q => q.2 == k) := by
  induction l with
  | nil => exact ⟨List.Perm.refl _, List.Pairwise.nil, fun k => rfl⟩
  | cons p rest ih =>
    refine ⟨?_, ?_, ?_⟩
    · exact (insertDesc_perm p (sortDesc rest)).trans (ih.1.cons p)
    · exact insertDesc_sorted p _ ih.2.1
    · intro k
      by_cases hk : p.2 = k
      · rw [show sortDesc (p :: rest) = insertDesc p (sortDesc rest) from rfl,
           insertDesc_filter_eq p _ k hk, ih.2.2 k, List.filter_cons]
        simp [hk]
      · rw [show sortDesc (p :: rest) = insertDesc p (sortDesc rest) from rfl,
           insertDesc_filter_ne p _ k hk, ih.2.2 k, List.filter_cons]
        simp [hk]

/-- C7 counterexample: the frequency tables of "ab" and "ba" are equal as
    mappings (permutations of each other) yet sort to different item orders, so
    the builder's input order is not determined by the symbols and frequencies
    alone and ties are not broken by symbol identity. -/
theorem sort_order_not_determined_by_mapping :
    (analyze_frequencies ['a', 'b']).Perm (analyze_frequencies ['b', 'a']) ∧
    sortDesc (analyze_frequencies ['a', 'b']) = [('a', 1), ('b', 1)] ∧
    sortDesc (analyze_frequencies ['b', 'a']) = [('b', 1), ('a', 1)] ∧
    sortDesc (analyze_frequencies ['a', 'b']) ≠ sortDesc (analyze_frequencies ['b', 'a']) :=
  ⟨by decide, rfl, rfl, by decide⟩

theorem sumFreqs_append (a b : List (Char × Nat)) :
    sumFreqs (a ++ b) = sumFreqs a + sumFreqs b := by
  simp [sumFreqs]

theorem sumFreqs_take_succ {items : List (Char × Nat)} {k : Nat}
    {p : Char × Nat} {rest : List (Char × Nat)} (h : items.drop k = p :: rest) :
    sumFreqs (items.take (k + 1)) = sumFreqs (items.take k) + p.2 := by
  rw [List.take_add, h]
  simp [sumFreqs_append, sumFreqs]

theorem drop_succ_of_drop_cons {items : List (Char × Nat)} {k : Nat}
    {p : Char × Nat} {rest : List (Char × Nat)} (h : items.drop k = p :: rest) :
    items.drop (k + 1) = rest := by
  rw [← List.drop_drop 1 k, h]
  rfl

theorem lt_length_of_drop_cons {items : List (Char × Nat)} {k : Nat}
    {p : Char × Nat} {rest : List (Char × Nat)} (h : items.drop k = p :: rest) :
    k < items.length := by
  have h₁ := List.length_drop k items
  rw [h] at h₁
  simp at h₁
  omega

theorem splitFold_first_min (items : List (Char × Nat)) :
    ∀ (rest : List (Char × Nat)) (k best m : Nat),
      items.drop k = rest → 1 ≤ k → k ≤ items.length →
      (∀ i, 1 ≤ i → i ≤ k → m ≤ splitDiff items i) →
      1 ≤ best → best ≤ k → splitDiff items best = m →
      (∀ i, 1 ≤ i → i < best → m < splitDiff items i) →
      IsFirstMinSplit items
        (splitFold (sumFreqs items) rest k (sumFreqs (items.take k)) best (some m)) := by
  intro rest
  induction rest generalizing items with
  | nil =>
    intro k best m hdrop hk1 hkn hmin hb1 hbk hbm hfirst
    rw [splitFold]
    have hnk : items.length ≤ k := by
      have h₁ := List.length_drop k items
      rw [hdrop] at h₁
      simp at h₁
      omega
    have hkeq : k = items.length := le_antisymm hkn hnk
    refine ⟨hb1, hbk.trans hkn, ?_, ?_⟩
    · intro i h1 h2
      exact hbm ▸ hmin i h1 (hkeq ▸ h2)
    · intro i h1 h2
      exact hbm ▸ hfirst i h1 h2
  | cons p rest' ih =>
    intro k best m hdrop hk1 hkn hmin hb1 hbk hbm hfirst
    have hklt : k < items.length := by
      have h₁ := List.length_drop k items
      rw [hdrop] at h₁
      simp at h₁
      omega
    have hdrop' : items.drop (k + 1) = rest' := drop_succ_of_drop_cons hdrop
    have hsum : sumFreqs (items.take (k + 1)) = sumFreqs (items.take k) + p.2 :=
      sumFreqs_take_succ hdrop
    have hdiff : Nat.dist (2 * (sumFreqs (items.take k) + p.2)) (sumFreqs items)
        = splitDiff items (k + 1) := by rw [splitDiff, hsum]
    rw [splitFold]
    by_cases hc :
        Nat.dist (2 * (sumFreqs (items.take k) + p.2)) (sumFreqs items) < m
    · rw [if_pos hc]
      have hc' : splitDiff items (k + 1) < m := hdiff ▸ hc
      rw [show sumFreqs (items.take k) + p.2 = sumFreqs (items.take (k + 1)) from hsum.symm]
      show IsFirstMinSplit items
        (splitFold (sumFreqs items) rest' (k + 1) (sumFreqs (items.take (k + 1)))
          (k + 1) (some (splitDiff items (k + 1))))
      refine ih items (k + 1) (k + 1) (splitDiff items (k + 1)) hdrop'
        (by omega) (by omega) ?_ (by omega) (by omega) rfl ?_
      · intro i h1 h2
        rcases Nat.lt_or_ge i (k + 1) with h3 | h3
        · exact le_of_lt (lt_of_lt_of_le hc' (hmin i h1 (by omega)))
        · have : i = k + 1 := by omega
          rw [this]
      · intro i h1 h2
        exact lt_of_lt_of_le hc' (hmin i h1 (by omega))
    · rw [if_neg hc]
      have hc' : m ≤ splitDiff items (k + 1) := hdiff ▸ le_of_not_lt hc
      rw [show sumFreqs (items.take k) + p.2 = sumFreqs (items.take (k + 1)) from hsum.symm]
      refine ih items (k + 1) best m hdrop' (by omega) (by omega) ?_ hb1 (by omega) hbm hfirst
      intro i h1 h2
      rcases Nat.lt_or_ge i (k + 1) with h3 | h3
      · exact hmin i h1 (by omega)
      · have : i = k + 1 := by omega
        rw [this]
        exact hc'

theorem splitFold_computes_first_min (items : List (Char × Nat))
    (h : 1 ≤ items.length) :
    IsFirstMinSplit items (splitFold (sumFreqs items) items 0 0 1 none) := by
  match items, h with
  | p :: rest, _ =>
    rw [splitFold]
    have h₀ : (0 : Nat) + p.2 = sumFreqs ((p :: rest).take 1) := by
      simp [sumFreqs]
    rw [h₀]
    show IsFirstMinSplit (p :: rest)
      (splitFold (sumFreqs (p :: rest)) rest 1 (sumFreqs ((p :: rest).take 1))
        1 (some (splitDiff (p :: rest) 1)))
    refine splitFold_first_min (p :: rest) rest 1 1 (splitDiff (p :: rest) 1)
      rfl (by omega) (by simp) ?_ (by omega) (by omega) rfl ?_
    · intro i h1 h2
      have : i = 1 := by omega
      rw [this]
    · intro i h1 h2
      omega

theorem isFirstMinSplit_unique {items : List (Char × Nat)} {j j' : Nat}
    (h : IsFirstMinSplit items j) (h' : IsFirstMinSplit items j') : j = j' := by
  rcases Nat.lt_trichotomy j j' with hlt | heq | hgt
  · exact absurd (h.2.2.1 j' h'.1 h'.2.1) (not_le_of_lt (h'.2.2.2 j h.1 hlt))
  · exact heq
  · exact absurd (h'.2.2.1 j h.1 h.2.1) (not_le_of_lt (h.2.2.2 j' h'.1 hgt))

/-- C6: for n >= 2 items the split index shannon_fano_split picks is the first
    candidate (scanning left to right over splits 1..n) minimizing the absolute
    difference between the left cumulative weight and half the total weight,
    clamped into [1, n-1]. -/
theorem shannon_split_is_clamped_first_min (items : List (Char × Nat)) (j : Nat)
    (h2 : 2 ≤ items.length) (hj : IsFirstMinSplit items j) :
    shannon_fano_split items = max 1 (min j (items.length - 1)) := by
  have hB := splitFold_computes_first_min items (by omega)
  have hjB := isFirstMinSplit_unique hj hB
  rw [shannon_fano_split, ← hjB]

theorem shannon_split_is_clamped_first_min_witness :
    shannon_fano_split [('a', 2), ('b', 1), ('c', 1)] = max 1 (min 1 2) :=
  shannon_split_is_clamped_first_min [('a', 2), ('b', 1), ('c', 1)] 1 (by decide)
    (by
      refine ⟨by decide, by decide, ?_, ?_⟩
      · intro i h1 h2
        have h3 : i ≤ 3 := by simpa using h2
        interval_cases i <;> decide
      · intro i h1 h2
        omega)
